import Mathlib

/-!
Verification of the transcoder repository's specification against its code.

Three groups of definitions appear below:

* `Mfr` — the most-frequent-request popularity queue.  The implementation of
  package `pkg/mfr` is not part of the source tree (only `mfr_test.go` is), so
  the queue is modelled from the specification (section 4.1 and the E1-E3
  scenarios), with the Pop/Release semantics pinned down by the tests in
  `src/pkg/mfr/mfr_test.go`: Pop marks the returned entry as released
  (invisible to further Pops) and `Release` clears that mark, making the entry
  poppable again; `Fold` deletes the entry outright.

* `Dispatcher` — the worker-pool dispatcher, embedded from the Go source that
  appears in `src/pkg/mfr/mfr_test.go` after the test suite (functions
  `Start`, `Worker.Start`, `Worker.Stop`, `Dispatcher.Dispatch`,
  `Dispatcher.Stop`).  Its shutdown protocol is modelled as a small-step
  transition system over the goroutines and channels of that code.

* `Video` and `Client` — the two-tier library from `src/video/video.go`
  (`Furlough`, `Retire`), and the fragment cache / fragment URL logic of the
  client package, which is likewise absent from the source tree and therefore
  modelled from the specification (section 4.6).
-/

namespace Mfr

/-- Modelled from the spec: a popularity entry with `key`, the `value` supplied
at the key's first insertion (never replaced on later hits), a monotonically
non-decreasing `hits` counter and a `released` flag marking entries that are
invisible to Pop and Peek.  Keys and values are opaque identifiers, rendered
here as naturals. -/
structure Entry where
  key : Nat
  value : Nat
  hits : Nat
  released : Bool
deriving DecidableEq, Repr

/-- Modelled from the spec: the queue owns its entry index (kept here in
insertion order, which also serves as the stable tie-break for equal hit
counts) and the aggregate `hits` accumulator counting all observed Hit
calls. -/
structure Queue where
  entries : List Entry
  hits : Nat
deriving DecidableEq, Repr

/-- Modelled from the spec: a freshly created queue is empty. -/
def NewQueue : Queue := ⟨[], 0⟩

/-- Modelled from the spec: the index update performed by Hit.  If the key is
present its counter is incremented and its released flag cleared (the value is
never replaced); otherwise a fresh entry with one hit is appended. -/
def hitEntries : List Entry → Nat → Nat → List Entry
  | [], k, v => [⟨k, v, 1, false⟩]
  | e :: es, k, v =>
    if e.key = k then { e with hits := e.hits + 1, released := false } :: es
    else e :: hitEntries es k v

/-- Modelled from the spec: Hit increments the per-key counter (inserting the
entry on first sight) and bumps the queue's aggregate hits accumulator. -/
def Hit (q : Queue) (k v : Nat) : Queue := ⟨hitEntries q.entries k v, q.hits + 1⟩

/-- Modelled from the spec: selection of the more popular of two candidate top
entries; on equal hit counts the earlier-inserted (left) one is kept. -/
def mergeTop : Option Entry → Option Entry → Option Entry
  | none, r => r
  | some e, none => some e
  | some e, some e' => if e'.hits > e.hits then some e' else some e

/-- Modelled from the spec: the highest-hit non-released entry of the index,
with insertion order as the stable tie-break. -/
def peekEntries : List Entry → Option Entry
  | [] => none
  | e :: es => if e.released then peekEntries es else mergeTop (some e) (peekEntries es)

/-- Modelled from the spec: Peek returns the top entry without changing the
queue. -/
def Peek (q : Queue) : Option Entry := peekEntries q.entries

/-- Modelled from the spec: set the released flag of the entry holding the
given key (first occurrence; keys are unique in any reachable queue). -/
def setReleased : List Entry → Nat → Bool → List Entry
  | [], _, _ => []
  | e :: es, k, b => if e.key = k then { e with released := b } :: es else e :: setReleased es k b

/-- Modelled from the spec: Pop returns the highest-hit non-released entry and
removes it from the poppable set by marking it released (the form of removal
that lets `Release` bring it back, as the E2 scenario requires); the aggregate
hits accumulator is not decremented. -/
def Pop (q : Queue) : Option Entry × Queue :=
  match peekEntries q.entries with
  | none => (none, q)
  | some e => (some e, ⟨setReleased q.entries e.key true, q.hits⟩)

/-- Modelled from the spec: Release puts the key's entry back into the
poppable set, so that a popped entry is returned again by the next Pop. -/
def Release (q : Queue) (k : Nat) : Queue := ⟨setReleased q.entries k false, q.hits⟩

/-- Modelled from the spec: removal of a key's entry from the index. -/
def removeKey : List Entry → Nat → List Entry
  | [], _ => []
  | e :: es, k => if e.key = k then es else e :: removeKey es k

/-- Modelled from the spec: Fold removes the key entirely; its hits are
lost. -/
def Fold (q : Queue) (k : Nat) : Queue := ⟨removeKey q.entries k, q.hits⟩

/-- Keys of an entry list, in order. -/
def keys (l : List Entry) : List Nat := l.map Entry.key

/-- Iterated Hit on a single key. -/
def hitN (q : Queue) (k v : Nat) : Nat → Queue
  | 0 => q
  | n + 1 => Hit (hitN q k v n) k v

/-- One Hit for each key-value pair of the list, in order. -/
def hitEach (q : Queue) : List (Nat × Nat) → Queue
  | [] => q
  | p :: ps => hitEach (Hit q p.1 p.2) ps

/-- The E1 workload of the test suite: keys 0, 1, 2 (the pinned claims u1, u2,
u3, with payloads 100, 101, 102) receive 10000, 10000 and 9000 Hits, and the
noise producer hits each key of `noise` once; interleaved Peeks do not change
the queue and are omitted. -/
def e1Queue (noise : List (Nat × Nat)) : Queue :=
  hitEach (hitN (hitN (hitN NewQueue 0 100 10000) 1 101 10000) 2 102 9000) noise

/-- Operations of the queue API, for stating trace invariants. -/
inductive Op where
  | hit (k v : Nat)
  | peek
  | pop
  | release (k : Nat)
  | fold (k : Nat)
deriving DecidableEq, Repr

/-- The state change performed by one queue operation. -/
def applyOp (q : Queue) : Op → Queue
  | .hit k v => Hit q k v
  | .peek => q
  | .pop => (Pop q).2
  | .release k => Release q k
  | .fold k => Fold q k

/-- Run a sequence of operations on a fresh queue. -/
def runOps (ops : List Op) : Queue := ops.foldl applyOp NewQueue

/-- Number of Hit operations in a sequence. -/
def countHits : List Op → Nat
  | [] => 0
  | .hit _ _ :: ops => countHits ops + 1
  | _ :: ops => countHits ops

theorem mergeTop_some_some (e e' : Entry) :
    mergeTop (some e) (some e') = if e'.hits > e.hits then some e' else some e := rfl

theorem mergeTop_none_left (r : Option Entry) : mergeTop none r = r := rfl

theorem mergeTop_none_right (e : Entry) : mergeTop (some e) none = some e := rfl

theorem mergeTop_assoc (a b c : Option Entry) :
    mergeTop (mergeTop a b) c = mergeTop a (mergeTop b c) := by
  cases a with
  | none => rfl
  | some e =>
    cases b with
    | none => cases c <;> rfl
    | some e' =>
      cases c with
      | none =>
        simp only [mergeTop_some_some, mergeTop_none_right]
        split <;> rfl
      | some e'' =>
        simp only [mergeTop_some_some]
        by_cases h1 : e'.hits > e.hits <;>
          by_cases h2 : e''.hits > e'.hits <;>
          simp only [h1, h2, if_true, if_false, mergeTop_some_some] <;>
          split_ifs <;> first | rfl | omega

theorem keys_cons (e : Entry) (l : List Entry) : keys (e :: l) = e.key :: keys l := rfl

theorem mem_keys_of_mem {e : Entry} {l : List Entry} (h : e ∈ l) : e.key ∈ keys l :=
  List.mem_map_of_mem Entry.key h

theorem peekEntries_append (l₁ l₂ : List Entry) :
    peekEntries (l₁ ++ l₂) = mergeTop (peekEntries l₁) (peekEntries l₂) := by
  induction l₁ with
  | nil => simp [peekEntries, mergeTop_none_left]
  | cons e es ih =>
    simp only [List.cons_append, peekEntries, List.append_eq]
    by_cases he : e.released = true
    · rw [if_pos he, if_pos he]
      exact ih
    · rw [if_neg he, if_neg he, ih, mergeTop_assoc]

theorem peekEntries_mem {l : List Entry} {e : Entry} (h : peekEntries l = some e) : e ∈ l := by
  induction l generalizing e with
  | nil => simp [peekEntries] at h
  | cons x xs ih =>
    simp only [peekEntries] at h
    by_cases hx : x.released = true
    · rw [if_pos hx] at h
      exact List.mem_cons_of_mem _ (ih h)
    · rw [if_neg hx] at h
      cases hr : peekEntries xs with
      | none =>
        rw [hr, mergeTop_none_right] at h
        cases h
        exact List.mem_cons_self _ _
      | some e' =>
        rw [hr, mergeTop_some_some] at h
        by_cases hc : e'.hits > x.hits
        · rw [if_pos hc] at h
          cases h
          exact List.mem_cons_of_mem _ (ih hr)
        · rw [if_neg hc] at h
          cases h
          exact List.mem_cons_self _ _

theorem peekEntries_not_released {l : List Entry} {e : Entry}
    (h : peekEntries l = some e) : e.released = false := by
  induction l generalizing e with
  | nil => simp [peekEntries] at h
  | cons x xs ih =>
    simp only [peekEntries] at h
    by_cases hx : x.released = true
    · rw [if_pos hx] at h
      exact ih h
    · rw [if_neg hx] at h
      cases hr : peekEntries xs with
      | none =>
        rw [hr, mergeTop_none_right] at h
        cases h
        simpa using hx
      | some e' =>
        rw [hr, mergeTop_some_some] at h
        by_cases hc : e'.hits > x.hits
        · rw [if_pos hc] at h
          cases h
          exact ih hr
        · rw [if_neg hc] at h
          cases h
          simpa using hx

theorem peekEntries_none_mem {l : List Entry} (h : peekEntries l = none) :
    ∀ x ∈ l, x.released = true := by
  induction l with
  | nil => simp
  | cons y ys ih =>
    simp only [peekEntries] at h
    by_cases hy : y.released = true
    · rw [if_pos hy] at h
      intro x hx
      rcases List.mem_cons.mp hx with rfl | hx'
      · exact hy
      · exact ih h x hx'
    · rw [if_neg hy] at h
      cases hr : peekEntries ys with
      | none =>
        rw [hr, mergeTop_none_right] at h
        cases h
      | some e' =>
        rw [hr, mergeTop_some_some] at h
        by_cases hc : e'.hits > y.hits
        · rw [if_pos hc] at h; cases h
        · rw [if_neg hc] at h; cases h

theorem peekEntries_is_max {l : List Entry} {e : Entry} (h : peekEntries l = some e) :
    ∀ x ∈ l, x.released = false → x.hits ≤ e.hits := by
  induction l generalizing e with
  | nil => simp [peekEntries] at h
  | cons y ys ih =>
    intro x hx hxr
    simp only [peekEntries] at h
    by_cases hy : y.released = true
    · rw [if_pos hy] at h
      rcases List.mem_cons.mp hx with rfl | hx'
      · rw [hxr] at hy; cases hy
      · exact ih h x hx' hxr
    · rw [if_neg hy] at h
      cases hr : peekEntries ys with
      | none =>
        rw [hr, mergeTop_none_right] at h
        cases h
        rcases List.mem_cons.mp hx with rfl | hx'
        · exact le_refl _
        · have := peekEntries_none_mem hr x hx'
          rw [hxr] at this; cases this
      | some e' =>
        rw [hr, mergeTop_some_some] at h
        rcases List.mem_cons.mp hx with rfl | hx'
        · by_cases hc : e'.hits > x.hits
          · rw [if_pos hc] at h; cases h; omega
          · rw [if_neg hc] at h; cases h; exact le_refl _
        · have hxe' := ih hr x hx' hxr
          by_cases hc : e'.hits > y.hits
          · rw [if_pos hc] at h; cases h; omega
          · rw [if_neg hc] at h; cases h; omega

theorem peekEntries_none {l : List Entry} (h : ∀ x ∈ l, x.released = true) :
    peekEntries l = none := by
  induction l with
  | nil => rfl
  | cons x xs ih =>
    have hx := h x (List.mem_cons_self _ _)
    simp only [peekEntries]
    rw [if_pos hx]
    exact ih fun y hy => h y (List.mem_cons_of_mem _ hy)

theorem peekEntries_le_of_bound {l : List Entry} {e : Entry} {b : Nat}
    (hb : ∀ x ∈ l, x.hits ≤ b) (h : peekEntries l = some e) : e.hits ≤ b :=
  hb e (peekEntries_mem h)

theorem mergeTop_left {a : Entry} {r : Option Entry} {b : Nat}
    (hr : ∀ e', r = some e' → e'.hits ≤ b) (hb : b < a.hits) :
    mergeTop (some a) r = some a := by
  cases r with
  | none => rfl
  | some e' =>
    have h1 := hr e' rfl
    have h2 : ¬ e'.hits > a.hits := by omega
    rw [mergeTop_some_some, if_neg h2]

theorem keys_setReleased (l : List Entry) (k : Nat) (b : Bool) :
    keys (setReleased l k b) = keys l := by
  induction l with
  | nil => rfl
  | cons e es ih =>
    simp only [setReleased]
    by_cases he : e.key = k
    · rw [if_pos he]
      rfl
    · rw [if_neg he, keys_cons, keys_cons, ih]

theorem setReleased_append_left {l₁ : List Entry} (l₂ : List Entry) {k : Nat} (b : Bool)
    (h : k ∈ keys l₁) : setReleased (l₁ ++ l₂) k b = setReleased l₁ k b ++ l₂ := by
  induction l₁ with
  | nil => simp [keys] at h
  | cons e es ih =>
    simp only [List.cons_append, setReleased, List.append_eq]
    by_cases he : e.key = k
    · rw [if_pos he, if_pos he]
      rfl
    · rw [if_neg he, if_neg he, List.cons_append]
      have h' : k ∈ keys es := by
        rw [keys_cons, List.mem_cons] at h
        rcases h with h | h
        · exact absurd h.symm he
        · exact h
      rw [ih h']

theorem setReleased_setReleased (l : List Entry) (k : Nat) (b b' : Bool) :
    setReleased (setReleased l k b) k b' = setReleased l k b' := by
  induction l with
  | nil => rfl
  | cons e es ih =>
    simp only [setReleased]
    by_cases he : e.key = k
    · rw [if_pos he]
      simp only [setReleased]
      rw [if_pos he, if_pos he]
    · rw [if_neg he]
      simp only [setReleased]
      rw [if_neg he, if_neg he, ih]

theorem setReleased_eq_self {l : List Entry} {e : Entry} {k : Nat}
    (hnd : (keys l).Nodup) (hmem : e ∈ l) (hk : e.key = k) (hrel : e.released = false) :
    setReleased l k false = l := by
  induction l with
  | nil => rfl
  | cons x xs ih =>
    rw [keys_cons, List.nodup_cons] at hnd
    simp only [setReleased]
    by_cases hx : x.key = k
    · have hex : e = x := by
        rcases List.mem_cons.mp hmem with rfl | hmem'
        · rfl
        · exfalso
          apply hnd.1
          have hk' : e.key ∈ keys xs := mem_keys_of_mem hmem'
          rw [hk, ← hx] at hk'
          exact hk'
      subst hex
      rw [if_pos hx]
      have : ({ e with released := false } : Entry) = e := by
        cases e
        simp_all
      rw [this]
    · have hmem' : e ∈ xs := by
        rcases List.mem_cons.mp hmem with rfl | hmem'
        · exact absurd hk hx
        · exact hmem'
      rw [if_neg hx, ih hnd.2 hmem']

theorem mem_setReleased_unreleased {l : List Entry} {k : Nat} {x : Entry}
    (hx : x ∈ setReleased l k true) (hrel : x.released = false) : x ∈ l := by
  induction l with
  | nil => simp [setReleased] at hx
  | cons e es ih =>
    simp only [setReleased] at hx
    by_cases he : e.key = k
    · rw [if_pos he] at hx
      rcases List.mem_cons.mp hx with rfl | hx'
      · simp at hrel
      · exact List.mem_cons_of_mem _ hx'
    · rw [if_neg he] at hx
      rcases List.mem_cons.mp hx with rfl | hx'
      · exact List.mem_cons_self _ _
      · exact List.mem_cons_of_mem _ (ih hx')

theorem mem_setReleased_key_ne {l : List Entry} {k : Nat} {x : Entry}
    (hnd : (keys l).Nodup) (hx : x ∈ setReleased l k true) (hrel : x.released = false) :
    x.key ≠ k := by
  induction l with
  | nil => simp [setReleased] at hx
  | cons e es ih =>
    rw [keys_cons, List.nodup_cons] at hnd
    simp only [setReleased] at hx
    by_cases he : e.key = k
    · rw [if_pos he] at hx
      rcases List.mem_cons.mp hx with rfl | hx'
      · simp at hrel
      · intro hxk
        apply hnd.1
        have := mem_keys_of_mem hx'
        rw [hxk, ← he] at this
        exact this
    · rw [if_neg he] at hx
      rcases List.mem_cons.mp hx with rfl | hx'
      · exact he
      · exact ih hnd.2 hx'

theorem keys_removeKey_not_mem {l : List Entry} {k : Nat}
    (hnd : (keys l).Nodup) : ∀ x ∈ removeKey l k, x.key ≠ k := by
  induction l with
  | nil => simp [removeKey]
  | cons e es ih =>
    intro x hx
    rw [keys_cons, List.nodup_cons] at hnd
    simp only [removeKey] at hx
    by_cases he : e.key = k
    · rw [if_pos he] at hx
      intro hxk
      apply hnd.1
      have := mem_keys_of_mem hx
      rw [hxk, ← he] at this
      exact this
    · rw [if_neg he] at hx
      rcases List.mem_cons.mp hx with rfl | hx'
      · exact he
      · exact ih hnd.2 x hx'


theorem hitEntries_fresh {l : List Entry} {k : Nat} (v : Nat) (h : k ∉ keys l) :
    hitEntries l k v = l ++ [⟨k, v, 1, false⟩] := by
  induction l with
  | nil => rfl
  | cons e es ih =>
    rw [keys_cons, List.mem_cons] at h
    push_neg at h
    simp only [hitEntries]
    rw [if_neg (fun hek => h.1 hek.symm), List.cons_append, ih h.2]

theorem hitEntries_last {l : List Entry} {k : Nat} (v v' : Nat) (n : Nat) (b : Bool)
    (h : k ∉ keys l) :
    hitEntries (l ++ [⟨k, v, n, b⟩]) k v' = l ++ [⟨k, v, n + 1, false⟩] := by
  induction l with
  | nil => simp [hitEntries]
  | cons e es ih =>
    rw [keys_cons, List.mem_cons] at h
    push_neg at h
    simp only [List.cons_append, hitEntries, List.append_eq]
    rw [if_neg (fun hek => h.1 hek.symm), ih h.2]

theorem hitN_fresh {q : Queue} {k : Nat} (v : Nat) {n : Nat} (h : k ∉ keys q.entries)
    (hn : n ≠ 0) :
    hitN q k v n = ⟨q.entries ++ [⟨k, v, n, false⟩], q.hits + n⟩ := by
  induction n with
  | zero => exact absurd rfl hn
  | succ m ih =>
    cases m with
    | zero =>
      show Hit q k v = _
      rw [Hit, hitEntries_fresh v h]
    | succ j =>
      show Hit (hitN q k v (j + 1)) k v = _
      rw [ih (Nat.succ_ne_zero j), Hit]
      simp only
      rw [hitEntries_last v v (j + 1) false h]
      simp only [Queue.mk.injEq, true_and]
      omega

theorem hitEach_fresh {ps : List (Nat × Nat)} {q : Queue}
    (hfresh : ∀ p ∈ ps, p.1 ∉ keys q.entries) (hnd : (ps.map Prod.fst).Nodup) :
    hitEach q ps =
      ⟨q.entries ++ ps.map (fun p => ⟨p.1, p.2, 1, false⟩), q.hits + ps.length⟩ := by
  induction ps generalizing q with
  | nil =>
    show q = _
    cases q
    simp
  | cons p ps ih =>
    simp only [List.map_cons, List.nodup_cons] at hnd
    show hitEach (Hit q p.1 p.2) ps = _
    have hp : p.1 ∉ keys q.entries := hfresh p (List.mem_cons_self _ _)
    have hq' : Hit q p.1 p.2 = ⟨q.entries ++ [⟨p.1, p.2, 1, false⟩], q.hits + 1⟩ := by
      rw [Hit, hitEntries_fresh p.2 hp]
    rw [hq']
    have hfresh' : ∀ r ∈ ps, r.1 ∉ keys (q.entries ++ [⟨p.1, p.2, 1, false⟩]) := by
      intro r hr
      have h1 : r.1 ∉ keys q.entries := hfresh r (List.mem_cons_of_mem _ hr)
      have h2 : r.1 ≠ p.1 := by
        intro hrp
        exact hnd.1 (hrp ▸ List.mem_map_of_mem Prod.fst hr)
      intro hmem
      rw [keys, List.map_append] at hmem
      rcases List.mem_append.mp hmem with hmem | hmem
      · exact h1 hmem
      · simp at hmem
        exact h2 hmem
    rw [ih hfresh' hnd.2]
    simp only [Queue.mk.injEq]
    constructor
    · rw [List.append_assoc]
      rfl
    · simp [List.length_cons]
      omega

/-- The three pinned entries after the E1 workload, in insertion order. -/
def e1Pinned : List Entry :=
  [⟨0, 100, 10000, false⟩, ⟨1, 101, 10000, false⟩, ⟨2, 102, 9000, false⟩]

/-- Noise entries produced by the E1 noise producer: one hit each. -/
def noiseEntries (noise : List (Nat × Nat)) : List Entry :=
  noise.map (fun p => ⟨p.1, p.2, 1, false⟩)

theorem e1Queue_eq {noise : List (Nat × Nat)}
    (hnd : (noise.map Prod.fst).Nodup) (hge : ∀ p ∈ noise, 3 ≤ p.1) :
    e1Queue noise = ⟨e1Pinned ++ noiseEntries noise, 29000 + noise.length⟩ := by
  have h1 : hitN NewQueue 0 100 10000 =
      ⟨[⟨0, 100, 10000, false⟩], 10000⟩ := by
    rw [hitN_fresh 100 (by simp [NewQueue, keys]) (by norm_num)]
    rfl
  have h2 : hitN (⟨[⟨0, 100, 10000, false⟩], 10000⟩ : Queue) 1 101 10000 =
      ⟨[⟨0, 100, 10000, false⟩, ⟨1, 101, 10000, false⟩], 20000⟩ := by
    rw [hitN_fresh 101 (by simp [keys]) (by norm_num)]
    rfl
  have h3 : hitN (⟨[⟨0, 100, 10000, false⟩, ⟨1, 101, 10000, false⟩], 20000⟩ : Queue) 2 102 9000 =
      ⟨e1Pinned, 29000⟩ := by
    rw [hitN_fresh 102 (by simp [keys]) (by norm_num)]
    rfl
  have hfresh : ∀ p ∈ noise, p.1 ∉ keys e1Pinned := by
    intro p hp hmem
    have := hge p hp
    simp [e1Pinned, keys] at hmem
    omega
  rw [e1Queue, h1, h2, h3, hitEach_fresh hfresh hnd]
  rfl


theorem Pop_peek (q : Queue) : (Pop q).1 = peekEntries q.entries := by
  unfold Pop
  cases h : peekEntries q.entries <;> rfl

theorem Pop_hits (q : Queue) : ((Pop q).2).hits = q.hits := by
  unfold Pop
  cases h : peekEntries q.entries <;> rfl

theorem Pop_entries_some {q : Queue} {e : Entry} (h : peekEntries q.entries = some e) :
    Pop q = (some e, ⟨setReleased q.entries e.key true, q.hits⟩) := by
  unfold Pop
  rw [h]

theorem pop_returns_max {q : Queue} {e : Entry} (h : (Pop q).1 = some e) :
    ∀ x ∈ q.entries, x.released = false → x.hits ≤ e.hits := by
  rw [Pop_peek] at h
  exact peekEntries_is_max h

theorem pop_empty {q : Queue} (h : ∀ x ∈ q.entries, x.released = true) : (Pop q).1 = none := by
  rw [Pop_peek]
  exact peekEntries_none h

theorem pop_snd_entries {q : Queue} {e : Entry} (h : (Pop q).1 = some e) :
    (Pop q).2.entries = setReleased q.entries e.key true := by
  rw [Pop_peek] at h
  rw [Pop_entries_some h]

theorem pop_pop_le {q : Queue} {e₁ e₂ : Entry}
    (h1 : (Pop q).1 = some e₁) (h2 : (Pop (Pop q).2).1 = some e₂) :
    e₂.hits ≤ e₁.hits := by
  have hent := pop_snd_entries h1
  rw [Pop_peek] at h2
  have hmem := peekEntries_mem h2
  have hrel := peekEntries_not_released h2
  rw [hent] at hmem
  exact pop_returns_max h1 e₂ (mem_setReleased_unreleased hmem hrel) hrel

theorem pop_pop_ne {q : Queue} {e₁ e₂ : Entry} (hnd : (keys q.entries).Nodup)
    (h1 : (Pop q).1 = some e₁) (h2 : (Pop (Pop q).2).1 = some e₂) :
    e₂ ≠ e₁ := by
  have hent := pop_snd_entries h1
  rw [Pop_peek] at h2
  have hmem := peekEntries_mem h2
  have hrel := peekEntries_not_released h2
  rw [hent] at hmem
  intro hcontra
  exact mem_setReleased_key_ne hnd hmem hrel (by rw [hcontra])

theorem peek_append_bound {P l : List Entry} {a : Entry} {b : Nat}
    (hP : peekEntries P = some a) (hb : ∀ x ∈ l, x.hits ≤ b) (ha : b < a.hits) :
    peekEntries (P ++ l) = some a := by
  rw [peekEntries_append, hP]
  exact mergeTop_left (fun e' he' => peekEntries_le_of_bound hb he') ha

theorem pop_append_noise {P l : List Entry} {a : Entry} {b : Nat} (n : Nat)
    (hP : peekEntries P = some a) (hb : ∀ x ∈ l, x.hits ≤ b) (ha : b < a.hits)
    (hk : a.key ∈ keys P) :
    Pop ⟨P ++ l, n⟩ = (some a, ⟨setReleased P a.key true ++ l, n⟩) := by
  have hpeek : peekEntries (Queue.mk (P ++ l) n).entries = some a :=
    peek_append_bound hP hb ha
  rw [Pop_entries_some hpeek]
  simp only [Prod.mk.injEq, Queue.mk.injEq, true_and, and_true]
  exact setReleased_append_left l true hk

/-- Entry list after the first E1 Pop has marked the top entry. -/
def e1Pinned1 : List Entry :=
  [⟨0, 100, 10000, true⟩, ⟨1, 101, 10000, false⟩, ⟨2, 102, 9000, false⟩]

/-- Entry list after the second E1 Pop. -/
def e1Pinned2 : List Entry :=
  [⟨0, 100, 10000, true⟩, ⟨1, 101, 10000, true⟩, ⟨2, 102, 9000, false⟩]

/-- Entry list after the third E1 Pop. -/
def e1Pinned3 : List Entry :=
  [⟨0, 100, 10000, true⟩, ⟨1, 101, 10000, true⟩, ⟨2, 102, 9000, true⟩]

theorem noiseEntries_bound (noise : List (Nat × Nat)) :
    ∀ x ∈ noiseEntries noise, x.hits ≤ 1 := by
  intro x hx
  rw [noiseEntries] at hx
  rcases List.mem_map.mp hx with ⟨p, _, rfl⟩
  exact le_refl 1

theorem e1_pop₁ {noise : List (Nat × Nat)}
    (hnd : (noise.map Prod.fst).Nodup) (hge : ∀ p ∈ noise, 3 ≤ p.1) :
    Pop (e1Queue noise) =
      (some ⟨0, 100, 10000, false⟩, ⟨e1Pinned1 ++ noiseEntries noise, 29000 + noise.length⟩) := by
  rw [e1Queue_eq hnd hge]
  have h := pop_append_noise (P := e1Pinned) (a := ⟨0, 100, 10000, false⟩)
    (29000 + noise.length) (by decide) (noiseEntries_bound noise) (by norm_num) (by decide)
  rw [h]
  have hsr : setReleased e1Pinned 0 true = e1Pinned1 := by decide
  rw [hsr]

theorem e1_pop₂ (noise : List (Nat × Nat)) (n : Nat) :
    Pop ⟨e1Pinned1 ++ noiseEntries noise, n⟩ =
      (some ⟨1, 101, 10000, false⟩, ⟨e1Pinned2 ++ noiseEntries noise, n⟩) := by
  have h := pop_append_noise (P := e1Pinned1) (a := ⟨1, 101, 10000, false⟩)
    n (by decide) (noiseEntries_bound noise) (by norm_num) (by decide)
  rw [h]
  have hsr : setReleased e1Pinned1 1 true = e1Pinned2 := by decide
  rw [hsr]

theorem e1_pop₃ (noise : List (Nat × Nat)) (n : Nat) :
    Pop ⟨e1Pinned2 ++ noiseEntries noise, n⟩ =
      (some ⟨2, 102, 9000, false⟩, ⟨e1Pinned3 ++ noiseEntries noise, n⟩) := by
  have h := pop_append_noise (P := e1Pinned2) (a := ⟨2, 102, 9000, false⟩)
    n (by decide) (noiseEntries_bound noise) (by norm_num) (by decide)
  rw [h]
  have hsr : setReleased e1Pinned2 2 true = e1Pinned3 := by decide
  rw [hsr]

theorem runOps_hits_aux (ops : List Op) (q : Queue) :
    (ops.foldl applyOp q).hits = q.hits + countHits ops := by
  induction ops generalizing q with
  | nil => simp [countHits]
  | cons op ops ih =>
    rw [List.foldl_cons, ih]
    cases op with
    | hit k v => simp only [applyOp, Hit, countHits]; omega
    | peek => simp only [applyOp, countHits]
    | pop => simp only [applyOp, countHits, Pop_hits]
    | release k => simp only [applyOp, Release, countHits]
    | fold k => simp only [applyOp, Fold, countHits]

theorem runOps_hits (ops : List Op) : (runOps ops).hits = countHits ops := by
  rw [runOps, runOps_hits_aux]
  simp [NewQueue]

theorem release_after_pop {q : Queue} {e : Entry} (hnd : (keys q.entries).Nodup)
    (h1 : (Pop q).1 = some e) : Release (Pop q).2 e.key = q := by
  have hp : peekEntries q.entries = some e := by rw [← Pop_peek]; exact h1
  have hmem := peekEntries_mem hp
  have hrel := peekEntries_not_released hp
  have h2 : (Pop q).2 = ⟨setReleased q.entries e.key true, q.hits⟩ := by
    rw [Pop_entries_some hp]
  rw [h2, Release]
  simp only
  rw [setReleased_setReleased, setReleased_eq_self hnd hmem rfl hrel]

theorem pop_release_pop {q : Queue} {e : Entry} (hnd : (keys q.entries).Nodup)
    (h1 : (Pop q).1 = some e) : (Pop (Release (Pop q).2 e.key)).1 = some e := by
  rw [release_after_pop hnd h1]
  exact h1

theorem pop_fold_pop_ne {q : Queue} {e : Entry} (hnd : (keys q.entries).Nodup)
    (h1 : (Pop q).1 = some e) : (Pop (Fold (Pop q).2 e.key)).1 ≠ some e := by
  intro hcontra
  have hent := pop_snd_entries h1
  rw [Pop_peek] at hcontra
  have hmem := peekEntries_mem hcontra
  have hq' : (Fold (Pop q).2 e.key).entries = removeKey (setReleased q.entries e.key true) e.key := by
    rw [Fold, hent]
  rw [hq'] at hmem
  have hndr : (keys (setReleased q.entries e.key true)).Nodup := by
    rw [keys_setReleased]; exact hnd
  exact keys_removeKey_not_mem hndr e hmem rfl

end Mfr

namespace Dispatcher

/-- Channel capacities fixed by `Start` in the dispatcher source: the
free-worker registry is created as a channel of task channels with buffer 200
and the intake channel with buffer 2000, independent of the requested worker
count (`make(chan chan Task, 200)` and `make(chan Task, 2000)`). -/
structure StartConfig where
  numWorkers : Nat
  workerPoolCap : Nat
  tasksCap : Nat
deriving DecidableEq, Repr

/-- The configuration produced by `Start(workers, wl)`. -/
def startConfig (workers : Nat) : StartConfig := ⟨workers, 200, 2000⟩

/-- Program points of a worker goroutine (`Worker.Start`): about to publish
its private task channel into the pool, blocked in the select, executing
`workload.Do`, or stopped (received on its stop channel and called
`wait.Done()`). -/
inductive WorkerPC where
  | publish
  | selectW
  | doTask
  | acked
deriving DecidableEq, Repr

/-- Program points of a per-task handoff goroutine spawned by the routing
loop (`go func() { workerQueue := <-d.workerPool; workerQueue <- task }()`):
receiving a free worker channel, sending the task to worker `w`, finished. -/
inductive HandoffPC where
  | takePool
  | sendTask (w : Nat)
  | hdone
deriving DecidableEq, Repr

/-- Program points of the routing goroutine launched by `Start`: blocked in
its select, stopping the workers one by one (`k` of them already stopped), or
returned. -/
inductive RouterPC where
  | selectR
  | stopping (k : Nat)
  | finished
deriving DecidableEq, Repr

/-- Program points of the goroutine calling `Dispatcher.Stop()`: blocked in
the send on `d.stopChan`, or returned from Stop. -/
inductive CallerPC where
  | sendStop
  | returned
deriving DecidableEq, Repr

/-- A global configuration of the dispatcher system: the Stop caller, the
routing goroutine, the worker goroutines (index = worker id), the spawned
per-task handoff goroutines, the buffered free-worker registry (worker ids
whose task channel is in the buffer) and the number of buffered intake
tasks. -/
structure Config where
  caller : CallerPC
  router : RouterPC
  workers : List WorkerPC
  handoffs : List HandoffPC
  pool : List Nat
  tasksBuf : Nat
deriving DecidableEq, Repr

/-- Pointwise list update (out-of-range indices leave the list unchanged). -/
def updateAt {α : Type} : List α → Nat → α → List α
  | [], _, _ => []
  | _ :: xs, 0, a => a :: xs
  | x :: xs, n + 1, a => x :: updateAt xs n a

/-- One interleaving step of the dispatcher system, transliterated from the
goroutine bodies in the dispatcher source.  Unbuffered channel operations
(`d.stopChan`, each worker's task and stop channels) appear as rendezvous
steps; buffered ones (`d.tasks`, `d.workerPool`) as capacity-guarded buffer
updates. -/
inductive Step : Config → Config → Prop where
  | dispatch (c : Config) (ht : c.tasksBuf < 2000) :
      Step c { c with tasksBuf := c.tasksBuf + 1 }
  | workerPublish (c : Config) (i : Nat)
      (hw : c.workers.get? i = some .publish) (hcap : c.pool.length < 200) :
      Step c { c with workers := updateAt c.workers i .selectW, pool := c.pool ++ [i] }
  | routerTake (c : Config) (hr : c.router = .selectR) (ht : c.tasksBuf ≠ 0) :
      Step c { c with tasksBuf := c.tasksBuf - 1, handoffs := c.handoffs ++ [.takePool] }
  | handoffTake (c : Config) (j w : Nat)
      (hh : c.handoffs.get? j = some .takePool) (hp : c.pool.head? = some w) :
      Step c { c with pool := c.pool.tail, handoffs := updateAt c.handoffs j (.sendTask w) }
  | handoffSend (c : Config) (j w : Nat)
      (hh : c.handoffs.get? j = some (.sendTask w)) (hw : c.workers.get? w = some .selectW) :
      Step c { c with workers := updateAt c.workers w .doTask,
                      handoffs := updateAt c.handoffs j .hdone }
  | workerFinish (c : Config) (i : Nat) (hw : c.workers.get? i = some .doTask) :
      Step c { c with workers := updateAt c.workers i .publish }
  | stopRendezvous (c : Config) (hc : c.caller = .sendStop) (hr : c.router = .selectR) :
      Step c { c with caller := .returned, router := .stopping 0 }
  | routerStopWorker (c : Config) (k : Nat) (hr : c.router = .stopping k)
      (hw : c.workers.get? k = some .selectW) :
      Step c { c with workers := updateAt c.workers k .acked, router := .stopping (k + 1) }
  | routerDone (c : Config) (hr : c.router = .stopping c.workers.length) :
      Step c { c with router := .finished }

/-- Reachability in the dispatcher transition system. -/
def Reaches : Config → Config → Prop := Relation.ReflTransGen Step

/-- The system state in which the test's dispatches have been buffered and a
caller is entering `Dispatcher.Stop()`: `n` idle workers about to publish,
`tasks` buffered intake tasks, no handoff goroutines yet. -/
def init (n tasks : Nat) : Config :=
  ⟨.sendStop, .selectR, List.replicate n .publish, [], [], tasks⟩

/-- The claim under scrutiny, stated over the model: whenever the call to
Stop has returned, every worker has finished its current task and
acknowledged the stop. -/
def stopWaitsForWorkers : Prop :=
  ∀ n tasks c, Reaches (init n tasks) c → c.caller = .returned →
    ∀ w ∈ c.workers, w = WorkerPC.acked

/-- A five-step execution with one worker and one dispatched task: the worker
publishes its channel, the routing loop hands the task off, the worker starts
running it, and the Stop rendezvous completes while the worker is still
mid-task. -/
theorem stopTrace :
    Reaches (init 1 1) ⟨.returned, .stopping 0, [.doTask], [.hdone], [], 0⟩ := by
  have s1 : Step (init 1 1) ⟨.sendStop, .selectR, [.selectW], [], [0], 1⟩ :=
    Step.workerPublish (init 1 1) 0 rfl (by decide)
  have s2 : Step ⟨.sendStop, .selectR, [.selectW], [], [0], 1⟩
      ⟨.sendStop, .selectR, [.selectW], [.takePool], [0], 0⟩ :=
    Step.routerTake _ rfl (by decide)
  have s3 : Step ⟨.sendStop, .selectR, [.selectW], [.takePool], [0], 0⟩
      ⟨.sendStop, .selectR, [.selectW], [.sendTask 0], [], 0⟩ :=
    Step.handoffTake _ 0 0 rfl rfl
  have s4 : Step ⟨.sendStop, .selectR, [.selectW], [.sendTask 0], [], 0⟩
      ⟨.sendStop, .selectR, [.doTask], [.hdone], [], 0⟩ :=
    Step.handoffSend _ 0 0 rfl rfl
  have s5 : Step ⟨.sendStop, .selectR, [.doTask], [.hdone], [], 0⟩
      ⟨.returned, .stopping 0, [.doTask], [.hdone], [], 0⟩ :=
    Step.stopRendezvous _ rfl rfl
  exact .head s1 (.head s2 (.head s3 (.head s4 (.head s5 .refl))))

theorem length_updateAt {α : Type} (l : List α) (i : Nat) (a : α) :
    (updateAt l i a).length = l.length := by
  induction l generalizing i with
  | nil => rfl
  | cons x xs ih =>
    cases i with
    | zero => rfl
    | succ n => simp [updateAt, ih]

theorem get?_updateAt_ne {α : Type} {l : List α} {i j : Nat} (a : α) (h : j ≠ i) :
    (updateAt l i a).get? j = l.get? j := by
  induction l generalizing i j with
  | nil => rfl
  | cons x xs ih =>
    cases i with
    | zero =>
      cases j with
      | zero => exact absurd rfl h
      | succ m => rfl
    | succ n =>
      cases j with
      | zero => rfl
      | succ m =>
        simp only [updateAt, List.get?]
        exact ih (fun hmn => h (by rw [hmn]))

theorem get?_lt_length {α : Type} {l : List α} {i : Nat} {a : α}
    (h : l.get? i = some a) : i < l.length := by
  induction l generalizing i with
  | nil => simp [List.get?] at h
  | cons x xs ih =>
    cases i with
    | zero => simp
    | succ n =>
      simp only [List.get?] at h
      simpa [List.length_cons] using Nat.succ_lt_succ (ih h)

theorem get?_updateAt_self {α : Type} {l : List α} {i : Nat} (a : α)
    (h : i < l.length) : (updateAt l i a).get? i = some a := by
  induction l generalizing i with
  | nil => simp at h
  | cons x xs ih =>
    cases i with
    | zero => rfl
    | succ n =>
      simp only [updateAt, List.get?]
      exact ih (by simpa using h)

/-- The reachability invariant of the shutdown protocol: the Stop caller has
returned exactly when the routing loop has taken the stop signal, the routing
loop has stopped exactly the first `k` workers while broadcasting, and when it
finishes all workers have acknowledged. -/
def shutdownInv (c : Config) : Prop :=
  ((c.caller = .sendStop ∧ c.router = .selectR) ∨
    (c.caller = .returned ∧ c.router ≠ .selectR)) ∧
  (∀ k, c.router = .stopping k →
    k ≤ c.workers.length ∧ ∀ i, i < k → c.workers.get? i = some .acked) ∧
  (c.router = .finished → ∀ i, i < c.workers.length → c.workers.get? i = some .acked)

theorem shutdownInv_init (n tasks : Nat) : shutdownInv (init n tasks) := by
  refine ⟨Or.inl ⟨rfl, rfl⟩, ?_, ?_⟩
  · intro k hk
    cases hk
  · intro hf
    cases hf

theorem shutdownInv_step {c c' : Config} (hstep : Step c c') (hinv : shutdownInv c) :
    shutdownInv c' := by
  obtain ⟨ha, hb, hc⟩ := hinv
  cases hstep with
  | dispatch ht => exact ⟨ha, hb, hc⟩
  | workerPublish i hw hcap =>
    refine ⟨ha, ?_, ?_⟩
    · intro k hk
      obtain ⟨hlen, hack⟩ := hb k hk
      refine ⟨by simpa [length_updateAt] using hlen, ?_⟩
      intro i' hi'
      have hne : i' ≠ i := by
        intro hii
        have := hack i' hi'
        rw [hii, hw] at this
        cases this
      rw [get?_updateAt_ne _ hne]
      exact hack i' hi'
    · intro hf i' hi'
      rw [length_updateAt] at hi'
      have := hc hf i' hi'
      have hne : i' ≠ i := by
        intro hii
        rw [hii, hw] at this
        cases this
      rw [get?_updateAt_ne _ hne]
      exact this
  | routerTake hr ht => exact ⟨ha, hb, hc⟩
  | handoffTake j w hh hp => exact ⟨ha, hb, hc⟩
  | handoffSend j w hh hw =>
    refine ⟨ha, ?_, ?_⟩
    · intro k hk
      obtain ⟨hlen, hack⟩ := hb k hk
      refine ⟨by simpa [length_updateAt] using hlen, ?_⟩
      intro i' hi'
      have hne : i' ≠ w := by
        intro hii
        have := hack i' hi'
        rw [hii, hw] at this
        cases this
      rw [get?_updateAt_ne _ hne]
      exact hack i' hi'
    · intro hf i' hi'
      rw [length_updateAt] at hi'
      have := hc hf i' hi'
      have hne : i' ≠ w := by
        intro hii
        rw [hii, hw] at this
        cases this
      rw [get?_updateAt_ne _ hne]
      exact this
  | workerFinish i hw =>
    refine ⟨ha, ?_, ?_⟩
    · intro k hk
      obtain ⟨hlen, hack⟩ := hb k hk
      refine ⟨by simpa [length_updateAt] using hlen, ?_⟩
      intro i' hi'
      have hne : i' ≠ i := by
        intro hii
        have := hack i' hi'
        rw [hii, hw] at this
        cases this
      rw [get?_updateAt_ne _ hne]
      exact hack i' hi'
    · intro hf i' hi'
      rw [length_updateAt] at hi'
      have := hc hf i' hi'
      have hne : i' ≠ i := by
        intro hii
        rw [hii, hw] at this
        cases this
      rw [get?_updateAt_ne _ hne]
      exact this
  | stopRendezvous hcall hr =>
    refine ⟨Or.inr ⟨rfl, by simp⟩, ?_, ?_⟩
    · intro k hk
      cases hk
      exact ⟨Nat.zero_le _, fun i hi => absurd hi (Nat.not_lt_zero i)⟩
    · intro hf
      cases hf
  | routerStopWorker k hr hw =>
    have hklt : k < c.workers.length := get?_lt_length hw
    obtain ⟨hlen, hack⟩ := hb k hr
    refine ⟨?_, ?_, ?_⟩
    · rcases ha with ⟨hc1, hc2⟩ | ⟨hc1, hc2⟩
      · rw [hr] at hc2; cases hc2
      · exact Or.inr ⟨hc1, by simp⟩
    · intro k' hk'
      cases hk'
      refine ⟨by rw [length_updateAt]; omega, ?_⟩
      intro i hi
      by_cases hik : i = k
      · subst hik
        exact get?_updateAt_self _ hklt
      · rw [get?_updateAt_ne _ hik]
        exact hack i (by omega)
    · intro hf
      cases hf
  | routerDone hr =>
    obtain ⟨hlen, hack⟩ := hb _ hr
    refine ⟨?_, ?_, ?_⟩
    · rcases ha with ⟨hc1, hc2⟩ | ⟨hc1, hc2⟩
      · rw [hr] at hc2; cases hc2
      · exact Or.inr ⟨hc1, by simp⟩
    · intro k' hk'
      cases hk'
    · intro _ i hi
      exact hack i hi

theorem shutdownInv_reaches {n tasks : Nat} {c : Config}
    (h : Reaches (init n tasks) c) : shutdownInv c := by
  induction h with
  | refl => exact shutdownInv_init n tasks
  | tail hsteps hstep ih => exact shutdownInv_step hstep ih

end Dispatcher

namespace Video

set_option linter.dupNamespace false

/-- Errors surfaced by the storage drivers and the persistence layer.  The
`deadlineExceeded` constructor stands for Go's context.DeadlineExceeded. -/
inductive Err where
  | deadlineExceeded
  | failure (code : Nat)
deriving DecidableEq, Repr

/-- A video record as stored by the library (src/video/video.go uses the
persistence layer behind `Queries`); `localPath` empty means no local copy. -/
structure Video where
  sdHash : String
  url : String
  localPath : String
  remoteURL : String
  size : Nat
deriving DecidableEq, Repr

/-- The effect of `queries.UpdatePath(ctx, sdHash, path)` on the record
store. -/
def updatePath (db : List Video) (sdHash path : String) : List Video :=
  db.map fun v => if v.sdHash = sdHash then { v with localPath := path } else v

/-- The effect of `queries.Delete(ctx, sdHash)` on the record store. -/
def deleteRecord (db : List Video) (sdHash : String) : List Video :=
  db.filter fun v => v.sdHash != sdHash

/-- Driver and persistence calls issued by `Furlough` and `Retire`, with the
deadline (in seconds) of the context each call receives; `none` records that
the call is made without any context.  In the Go source, `local.Delete` and
`remote.Delete` are invoked as `q.local.Delete(v.SDHash)` and
`q.remote.Delete(v.SDHash)` — no context parameter — while
`q.queries.UpdatePath(ctx, v.SDHash, "")` and `q.queries.Delete(ctx, v.SDHash)`
receive the 5-second-timeout context created at the top of each method. -/
inductive DriverCall where
  | localDelete (sdHash : String) (deadline : Option Nat)
  | remoteDelete (sdHash : String) (deadline : Option Nat)
  | updatePathCall (sdHash path : String) (deadline : Option Nat)
  | deleteRecordCall (sdHash : String) (deadline : Option Nat)
deriving DecidableEq, Repr

/-- `Library.Furlough` from src/video/video.go:83-102, with the outcomes of
the two external calls (`local.Delete`, `queries.UpdatePath`) supplied as
oracle arguments.  Returns the method result, the record store after the
call, and the trace of external calls actually issued, in order.  The byte
deletion runs first; on its failure the method returns that error at once and
the metadata step is never reached. -/
def Furlough (localRes updateRes : Except Err Unit) (db : List Video) (v : Video) :
    Except Err Unit × List Video × List DriverCall :=
  match localRes with
  | .error e => (.error e, db, [.localDelete v.sdHash none])
  | .ok _ =>
    match updateRes with
    | .error e =>
      (.error e, db, [.localDelete v.sdHash none, .updatePathCall v.sdHash "" (some 5)])
    | .ok _ =>
      (.ok (), updatePath db v.sdHash "",
        [.localDelete v.sdHash none, .updatePathCall v.sdHash "" (some 5)])

/-- `Library.Retire` from src/video/video.go:104-123, analogous to
`Furlough`: `remote.Delete` first (no context), then `queries.Delete` under
the 5-second context. -/
def Retire (remoteRes deleteRes : Except Err Unit) (db : List Video) (v : Video) :
    Except Err Unit × List Video × List DriverCall :=
  match remoteRes with
  | .error e => (.error e, db, [.remoteDelete v.sdHash none])
  | .ok _ =>
    match deleteRes with
    | .error e =>
      (.error e, db, [.remoteDelete v.sdHash none, .deleteRecordCall v.sdHash (some 5)])
    | .ok _ =>
      (.ok (), deleteRecord db v.sdHash,
        [.remoteDelete v.sdHash none, .deleteRecordCall v.sdHash (some 5)])

end Video

namespace Client

/-- Modelled from the spec: lowercase hexadecimal digits, the alphabet of the
canonical sd-hash regex `/streams/([0-9a-f]{96})/`. -/
def isSdHashChar (c : Char) : Bool :=
  (decide ('0' ≤ c) && decide (c ≤ '9')) || (decide ('a' ≤ c) && decide (c ≤ 'f'))

/-- Modelled from the spec: take exactly `n` hex characters from the front of
the character list, returning them and the remainder. -/
def takeHex : Nat → List Char → Option (List Char × List Char)
  | 0, rest => some ([], rest)
  | _ + 1, [] => none
  | n + 1, c :: cs =>
    if isSdHashChar c then (takeHex n cs).map (fun p => (c :: p.1, p.2)) else none

/-- Modelled from the spec: match a literal character sequence at the front
of the list, returning the remainder on success. -/
def matchMarker : List Char → List Char → Option (List Char)
  | [], rest => some rest
  | _ :: _, [] => none
  | m :: ms, c :: cs => if c = m then matchMarker ms cs else none

/-- Modelled from the spec: try to read `/streams/` followed by 96 hex
characters followed by `/` at the current position, returning the hash. -/
def sdHashAt (l : List Char) : Option (List Char) :=
  (matchMarker "/streams/".data l).bind fun rest =>
    (takeHex 96 rest).bind fun p =>
      match p.2 with
      | c :: _ => if c = '/' then some p.1 else none
      | [] => none

/-- Modelled from the spec: the first sd-hash parsable from the URL with the
canonical regex `/streams/([0-9a-f]{96})/`. -/
def findSdHash : List Char → Option (List Char)
  | [] => none
  | c :: cs =>
    match sdHashAt (c :: cs) with
    | some h => some h
    | none => findSdHash cs

/-- Modelled from the spec: the literal error message of the fragment-URL
validation failure. -/
def sdHashMismatchErr : String := "remote sd hash mismatch"

/-- Modelled from the spec: `fragmentURL(url, sdHash, name)` composes the
upstream fragment URL after validating the supplied `sdHash` against the one
parsable from the stream URL (the URL resolved for the stream, carrying the
`/streams/<96-hex>/` segment); on mismatch it returns an empty URL and the
mismatch error, otherwise `<server>/streams/<sdHash>/<name>`.  The client
implementation is not part of the source tree (only client_test.go is), so
resolution of the stream identifier to `resolvedURL` is abstracted as an
argument. -/
def fragmentURL (server resolvedURL sdHash name : String) : Except String String :=
  match findSdHash resolvedURL.data with
  | some h =>
    if h = sdHash.data then
      .ok (server ++ "/streams/" ++ sdHash ++ "/" ++ name)
    else
      .error sdHashMismatchErr
  | none => .error sdHashMismatchErr

/-- A fragment cache entry: identity `(sdHash, name)` plus the on-disk size
registered at scan time. -/
structure CacheEntry where
  sdHash : String
  name : String
  size : Nat
deriving DecidableEq, Repr

/-- Modelled from the spec: the on-disk state the startup scan walks — hash
directories under the cache root, each holding regular files with their
sizes. -/
structure DiskState where
  dirs : List (String × List (String × Nat))
deriving DecidableEq, Repr

/-- Modelled from the spec: `RestoreCache()` walks `<root>/<sdHash>/*`,
registers every regular file as an entry with its disk size and returns the
total count of registered files. -/
def RestoreCache (fs : DiskState) : List CacheEntry × Nat :=
  let entries := fs.dirs.flatMap fun d => d.2.map fun f => CacheEntry.mk d.1 f.1 f.2
  (entries, entries.length)

/-- Modelled from the spec: `getCachedFragment(url, sdHash, name)` returns
the indexed entry and `hit = true` when the `(sdHash, name)` tuple is in the
cache index. -/
def getCachedFragment (cache : List CacheEntry) (_url sdHash name : String) :
    Option CacheEntry × Bool :=
  match cache.find? (fun e => e.sdHash == sdHash && e.name == name) with
  | some e => (some e, true)
  | none => (none, false)

/-- The fixture of the RestoreCache test: 10 pre-populated streams of
78*4+5 files each. -/
def tenStreams : DiskState :=
  ⟨(List.range 10).map fun i =>
    (toString i, (List.range (78 * 4 + 5)).map fun j => (toString j, 10000))⟩

end Client

namespace Client

theorem takeHex_spec : ∀ {n : Nat} {l h r : List Char}, takeHex n l = some (h, r) →
    h.length = n ∧ ∀ c ∈ h, isSdHashChar c = true := by
  intro n
  induction n with
  | zero =>
    intro l h r hh
    have hh' : some (([] : List Char), l) = some (h, r) := hh
    injection hh' with hpr
    injection hpr with h1 h2
    subst h1
    exact ⟨rfl, by simp⟩
  | succ m ih =>
    intro l h r hh
    cases l with
    | nil => simp [takeHex] at hh
    | cons c cs =>
      simp only [takeHex] at hh
      by_cases hhex : isSdHashChar c = true
      · rw [if_pos hhex] at hh
        cases hmap : takeHex m cs with
        | none => rw [hmap] at hh; cases hh
        | some p =>
          rw [hmap] at hh
          obtain ⟨h', r'⟩ := p
          have hh' : some ((c :: h', r')) = some (h, r) := hh
          injection hh' with hpr
          injection hpr with h1 h2
          subst h1
          obtain ⟨hlen, hall⟩ := ih hmap
          refine ⟨by simp [hlen], ?_⟩
          intro c' hc'
          rcases List.mem_cons.mp hc' with rfl | hc''
          · exact hhex
          · exact hall c' hc''
      · rw [if_neg hhex] at hh
        cases hh

theorem sdHashAt_spec {l h : List Char} (hh : sdHashAt l = some h) :
    h.length = 96 ∧ ∀ c ∈ h, isSdHashChar c = true := by
  rw [sdHashAt] at hh
  cases hm : matchMarker "/streams/".data l with
  | none =>
    rw [hm] at hh
    exact Option.noConfusion hh
  | some rest =>
    rw [hm, Option.some_bind] at hh
    cases ht : takeHex 96 rest with
    | none =>
      rw [ht] at hh
      exact Option.noConfusion hh
    | some p =>
      rw [ht, Option.some_bind] at hh
      obtain ⟨h0, rest'⟩ := p
      cases rest' with
      | nil => exact Option.noConfusion hh
      | cons c cs =>
        have hh' : (if c = '/' then some h0 else none) = some h := hh
        by_cases hc : c = '/'
        · rw [if_pos hc] at hh'
          injection hh' with h1
          subst h1
          exact takeHex_spec ht
        · rw [if_neg hc] at hh'
          exact Option.noConfusion hh'

theorem findSdHash_spec : ∀ {l h : List Char}, findSdHash l = some h →
    h.length = 96 ∧ ∀ c ∈ h, isSdHashChar c = true := by
  intro l
  induction l with
  | nil => intro h hh; cases hh
  | cons c cs ih =>
    intro h hh
    rw [findSdHash] at hh
    cases hA : sdHashAt (c :: cs) with
    | some h' =>
      rw [hA] at hh
      cases hh
      exact sdHashAt_spec hA
    | none =>
      rw [hA] at hh
      exact ih hh

theorem find?_append_none {α : Type} {l₁ l₂ : List α} {p : α → Bool}
    (h : l₁.find? p = none) : (l₁ ++ l₂).find? p = l₂.find? p := by
  induction l₁ with
  | nil => rfl
  | cons x xs ih =>
    rw [List.find?_cons] at h
    rw [List.cons_append, List.find?_cons]
    cases hp : p x with
    | true =>
      rw [hp] at h
      exact Option.noConfusion h
    | false =>
      rw [hp] at h
      exact ih h

theorem find?_append_some {α : Type} {l₁ l₂ : List α} {p : α → Bool} {x : α}
    (h : l₁.find? p = some x) : (l₁ ++ l₂).find? p = some x := by
  induction l₁ with
  | nil => cases h
  | cons y ys ih =>
    rw [List.find?_cons] at h
    rw [List.cons_append, List.find?_cons]
    cases hp : p y with
    | true =>
      rw [hp] at h
      exact h
    | false =>
      rw [hp] at h
      exact ih h

/-- The predicate used by getCachedFragment for the (sdHash, name) tuple. -/
theorem find_in_dir {h n : String} {sz : Nat} {files : List (String × Nat)}
    (hnd : (files.map Prod.fst).Nodup) (hmem : (n, sz) ∈ files) :
    (files.map fun f => CacheEntry.mk h f.1 f.2).find?
      (fun e => e.sdHash == h && e.name == n) = some ⟨h, n, sz⟩ := by
  induction files with
  | nil => cases hmem
  | cons f fs ih =>
    obtain ⟨n', sz'⟩ := f
    simp only [List.map_cons, List.nodup_cons] at hnd
    simp only [List.map_cons, List.find?_cons]
    by_cases hn : n' = n
    · subst hn
      have hfe : (n', sz) = (n', sz') := by
        rcases List.mem_cons.mp hmem with heq | hmem'
        · exact heq.symm ▸ rfl
        · exact absurd (List.mem_map_of_mem Prod.fst hmem') (by simpa using hnd.1)
      obtain ⟨-, rfl⟩ := Prod.mk.injEq .. ▸ hfe
      simp
    · have hpred : ((CacheEntry.mk h n' sz').sdHash == h && (CacheEntry.mk h n' sz').name == n) = false := by
        simp [hn]
      rw [hpred]
      have hmem' : (n, sz) ∈ fs := by
        rcases List.mem_cons.mp hmem with heq | hmem'
        · cases heq; exact absurd rfl hn
        · exact hmem'
      exact ih hnd.2 hmem'

theorem find_other_dir {h n dh : String} {files : List (String × Nat)} (hne : dh ≠ h) :
    (files.map fun f => CacheEntry.mk dh f.1 f.2).find?
      (fun e => e.sdHash == h && e.name == n) = none := by
  induction files with
  | nil => rfl
  | cons f fs ih =>
    simp only [List.map_cons, List.find?_cons]
    have hpred : ((CacheEntry.mk dh f.1 f.2).sdHash == h && (CacheEntry.mk dh f.1 f.2).name == n) = false := by
      simp [hne]
    rw [hpred]
    exact ih

theorem restore_find {fs : DiskState} (hnd : (fs.dirs.map Prod.fst).Nodup)
    (hins : ∀ d ∈ fs.dirs, (d.2.map Prod.fst).Nodup)
    {h : String} {files : List (String × Nat)} (hdir : (h, files) ∈ fs.dirs)
    {n : String} {sz : Nat} (hfile : (n, sz) ∈ files) :
    ((RestoreCache fs).1).find? (fun e => e.sdHash == h && e.name == n) = some ⟨h, n, sz⟩ := by
  obtain ⟨dirs⟩ := fs
  simp only [RestoreCache] at *
  induction dirs with
  | nil => cases hdir
  | cons d ds ih =>
    simp only [List.map_cons, List.nodup_cons] at hnd
    simp only [List.flatMap_cons]
    rcases List.mem_cons.mp hdir with heq | hdir'
    · obtain ⟨rfl, rfl⟩ : d.1 = h ∧ d.2 = files := by
        cases heq; exact ⟨rfl, rfl⟩
      exact find?_append_some
        (find_in_dir (hins d (List.mem_cons_self _ _)) hfile)
    · have hdh : d.1 ≠ h := by
        intro hcontra
        apply hnd.1
        have := List.mem_map_of_mem Prod.fst hdir'
        rw [← hcontra] at this
        exact this
      rw [find?_append_none (find_other_dir hdh)]
      exact ih hnd.2 (fun d' hd' => hins d' (List.mem_cons_of_mem _ hd')) hdir'

theorem restoreCache_count (fs : DiskState) :
    (RestoreCache fs).2 = (fs.dirs.map (fun d => d.2.length)).sum := by
  obtain ⟨dirs⟩ := fs
  simp only [RestoreCache]
  induction dirs with
  | nil => rfl
  | cons d ds ih =>
    simp only [List.flatMap_cons, List.length_append, List.length_map, List.map_cons,
      List.sum_cons]
    rw [ih]

end Client

/-- Concrete noise workload for witnessing the E1 scenario: 100000 distinct
keys 3..100002 with distinct payloads. -/
def noiseList : List (Nat × Nat) := (List.range 100000).map fun i => (i + 3, i)

theorem noiseList_nodup : (noiseList.map Prod.fst).Nodup := by
  rw [noiseList, List.map_map]
  have hco : (Prod.fst ∘ fun i : Nat => (i + 3, i)) = fun i : Nat => i + 3 := rfl
  rw [hco]
  have hinj : Function.Injective (fun i : Nat => i + 3) := fun a b h => by
    simp only at h
    omega
  exact (List.nodup_range 100000).map hinj

theorem noiseList_ge : ∀ p ∈ noiseList, 3 ≤ p.1 := by
  intro p hp
  rw [noiseList] at hp
  rcases List.mem_map.mp hp with ⟨i, -, rfl⟩
  simp

theorem noiseList_length : noiseList.length = 100000 := by
  rw [noiseList, List.length_map, List.length_range]

/-- C1: Pop returns the highest-hit non-released entry (removing it from the
poppable set), or nil when the queue has no poppable entry, so successive
Pops are non-increasing in hits; after the E1 workload (10000, 10000, 9000
hits on the pinned keys plus 100000 single hits on fresh unique keys) the
first three Pops return the pinned entries in order, with hits 10000, 10000,
9000 and the values supplied at first insertion. -/
theorem claim_C1 :
    (∀ (q : Mfr.Queue) (e : Mfr.Entry), (Mfr.Pop q).1 = some e →
      ∀ x ∈ q.entries, x.released = false → x.hits ≤ e.hits) ∧
    (∀ q : Mfr.Queue, (∀ x ∈ q.entries, x.released = true) → (Mfr.Pop q).1 = none) ∧
    (∀ (q : Mfr.Queue) (e₁ e₂ : Mfr.Entry), (Mfr.Pop q).1 = some e₁ →
      (Mfr.Pop (Mfr.Pop q).2).1 = some e₂ → e₂.hits ≤ e₁.hits) ∧
    (∀ noise : List (Nat × Nat), (noise.map Prod.fst).Nodup →
      (∀ p ∈ noise, 3 ≤ p.1) → noise.length = 100000 →
      (Mfr.Pop (Mfr.e1Queue noise)).1 = some ⟨0, 100, 10000, false⟩ ∧
      (Mfr.Pop (Mfr.Pop (Mfr.e1Queue noise)).2).1 = some ⟨1, 101, 10000, false⟩ ∧
      (Mfr.Pop (Mfr.Pop (Mfr.Pop (Mfr.e1Queue noise)).2).2).1 = some ⟨2, 102, 9000, false⟩) := by
  refine ⟨fun q e h => Mfr.pop_returns_max h, fun q h => Mfr.pop_empty h,
    fun q e₁ e₂ h1 h2 => Mfr.pop_pop_le h1 h2, ?_⟩
  intro noise hnd hge hlen
  have p1 := Mfr.e1_pop₁ hnd hge
  have p2 := Mfr.e1_pop₂ noise (29000 + noise.length)
  have p3 := Mfr.e1_pop₃ noise (29000 + noise.length)
  refine ⟨?_, ?_, ?_⟩
  · rw [p1]
  · rw [p1]
    show (Mfr.Pop ⟨Mfr.e1Pinned1 ++ Mfr.noiseEntries noise, 29000 + noise.length⟩).1 = _
    rw [p2]
  · rw [p1]
    show (Mfr.Pop (Mfr.Pop ⟨Mfr.e1Pinned1 ++ Mfr.noiseEntries noise,
      29000 + noise.length⟩).2).1 = _
    rw [p2]
    show (Mfr.Pop ⟨Mfr.e1Pinned2 ++ Mfr.noiseEntries noise, 29000 + noise.length⟩).1 = _
    rw [p3]

/-- Witness for C1 at the concrete noise workload `noiseList`. -/
theorem claim_C1_witness :
    (Mfr.Pop (Mfr.e1Queue noiseList)).1 = some ⟨0, 100, 10000, false⟩ ∧
    (Mfr.Pop (Mfr.Pop (Mfr.e1Queue noiseList)).2).1 = some ⟨1, 101, 10000, false⟩ ∧
    (Mfr.Pop (Mfr.Pop (Mfr.Pop (Mfr.e1Queue noiseList)).2).2).1 = some ⟨2, 102, 9000, false⟩ :=
  claim_C1.2.2.2 noiseList noiseList_nodup noiseList_ge noiseList_length

/-- C2: the queue's aggregate hits accumulator equals the number of Hit
invocations observed over any operation sequence, Pop does not change it, and
after the E1 workload plus three Pops it equals 129000. -/
theorem claim_C2 :
    (∀ ops : List Mfr.Op, (Mfr.runOps ops).hits = Mfr.countHits ops) ∧
    (∀ q : Mfr.Queue, ((Mfr.Pop q).2).hits = q.hits) ∧
    (∀ noise : List (Nat × Nat), (noise.map Prod.fst).Nodup →
      (∀ p ∈ noise, 3 ≤ p.1) → noise.length = 100000 →
      ((Mfr.Pop (Mfr.Pop (Mfr.Pop (Mfr.e1Queue noise)).2).2).2).hits = 129000) := by
  refine ⟨Mfr.runOps_hits, Mfr.Pop_hits, ?_⟩
  intro noise hnd hge hlen
  rw [Mfr.Pop_hits, Mfr.Pop_hits, Mfr.Pop_hits, Mfr.e1Queue_eq hnd hge]
  show 29000 + noise.length = 129000
  omega

/-- Witness for C2 at the concrete noise workload `noiseList`. -/
theorem claim_C2_witness :
    ((Mfr.Pop (Mfr.Pop (Mfr.Pop (Mfr.e1Queue noiseList)).2).2).2).hits = 129000 :=
  claim_C2.2.2 noiseList noiseList_nodup noiseList_ge noiseList_length

/-- C3: for a non-empty queue (with the per-key uniqueness invariant), if Pop
returns entry e with key k, then Release(k) followed by Pop returns the same
entry e, while Fold(k) followed by Pop returns something different from e. -/
theorem claim_C3 : ∀ (q : Mfr.Queue) (e : Mfr.Entry), (Mfr.keys q.entries).Nodup →
    (Mfr.Pop q).1 = some e →
    (Mfr.Pop (Mfr.Release (Mfr.Pop q).2 e.key)).1 = some e ∧
    (Mfr.Pop (Mfr.Fold (Mfr.Pop q).2 e.key)).1 ≠ some e :=
  fun _ _ hnd h1 => ⟨Mfr.pop_release_pop hnd h1, Mfr.pop_fold_pop_ne hnd h1⟩

/-- Witness for C3 on the concrete queue built by two hits on key 0 and one
hit on key 1. -/
theorem claim_C3_witness :
    (Mfr.Pop (Mfr.Release
      (Mfr.Pop (Mfr.runOps [Mfr.Op.hit 0 5, Mfr.Op.hit 0 5, Mfr.Op.hit 1 6])).2 0)).1 =
        some ⟨0, 5, 2, false⟩ ∧
    (Mfr.Pop (Mfr.Fold
      (Mfr.Pop (Mfr.runOps [Mfr.Op.hit 0 5, Mfr.Op.hit 0 5, Mfr.Op.hit 1 6])).2 0)).1 ≠
        some ⟨0, 5, 2, false⟩ :=
  claim_C3 (Mfr.runOps [Mfr.Op.hit 0 5, Mfr.Op.hit 0 5, Mfr.Op.hit 1 6])
    ⟨0, 5, 2, false⟩ (by decide) (by decide)

/-- Counterexample for C5: the claim that `Dispatcher.Stop` returns only after
every worker has finished its current task and acknowledged the stop is false
of the code: `Stop` is a bare send on the unbuffered `d.stopChan`, so it
returns as soon as the routing loop receives the signal, while the workers are
stopped afterwards by the routing goroutine.  In the model, after a five-step
execution with one worker and one dispatched task, the caller has returned
from Stop while the worker is still executing `workload.Do`. -/
theorem claim_C5_counterexample : ¬ Dispatcher.stopWaitsForWorkers := by
  intro h
  have hc := h 1 1 ⟨.returned, .stopping 0, [.doTask], [.hdone], [], 0⟩
    Dispatcher.stopTrace rfl Dispatcher.WorkerPC.doTask (by decide)
  exact absurd hc (by decide)

/-- C5 (amended): `Stop` returns only after the routing loop has received the
shutdown signal and stopped accepting tasks; worker shutdown then proceeds in
the routing goroutine, and by the time the routing goroutine finishes the
stop broadcast every worker has finished its current task and acknowledged —
but that completion happens after Stop has already returned to its caller. -/
theorem claim_C5 : ∀ (n tasks : Nat) (c : Dispatcher.Config),
    Dispatcher.Reaches (Dispatcher.init n tasks) c →
    (c.caller = Dispatcher.CallerPC.returned → c.router ≠ Dispatcher.RouterPC.selectR) ∧
    (c.router = Dispatcher.RouterPC.finished →
      ∀ w ∈ c.workers, w = Dispatcher.WorkerPC.acked) := by
  intro n tasks c hreach
  obtain ⟨ha, hb, hc⟩ := Dispatcher.shutdownInv_reaches hreach
  constructor
  · intro hret
    rcases ha with ⟨h1, -⟩ | ⟨-, h2⟩
    · rw [hret] at h1
      cases h1
    · exact h2
  · intro hfin w hw
    rcases List.mem_iff_get?.mp hw with ⟨i, hi⟩
    have hlt := Dispatcher.get?_lt_length hi
    have hack := hc hfin i hlt
    rw [hi] at hack
    exact Option.some.inj hack

/-- Witness for C5 at the configuration reached by the five-step trace. -/
theorem claim_C5_witness :
    ((⟨.returned, .stopping 0, [.doTask], [.hdone], [], 0⟩ : Dispatcher.Config).caller =
        Dispatcher.CallerPC.returned →
      (⟨.returned, .stopping 0, [.doTask], [.hdone], [], 0⟩ : Dispatcher.Config).router ≠
        Dispatcher.RouterPC.selectR) ∧
    ((⟨.returned, .stopping 0, [.doTask], [.hdone], [], 0⟩ : Dispatcher.Config).router =
        Dispatcher.RouterPC.finished →
      ∀ w ∈ (⟨.returned, .stopping 0, [.doTask], [.hdone], [], 0⟩ : Dispatcher.Config).workers,
        w = Dispatcher.WorkerPC.acked) :=
  claim_C5 1 1 _ Dispatcher.stopTrace

/-- Counterexample for C6: the free-worker registry capacity is the constant
200 fixed by `make(chan chan Task, 200)` in `Start`, so for a worker count of
201 it is not at least the worker count. -/
theorem claim_C6_counterexample :
    ¬ (201 ≤ (Dispatcher.startConfig 201).workerPoolCap) := by
  decide

/-- C6 (amended): `Start` creates the free-worker registry with the fixed
capacity 200 regardless of the worker count, which is at least the worker
count exactly for counts up to 200 (the test uses 20 workers). -/
theorem claim_C6 : ∀ workers : Nat, workers ≤ 200 →
    (Dispatcher.startConfig workers).workerPoolCap = 200 ∧
    workers ≤ (Dispatcher.startConfig workers).workerPoolCap := by
  intro w hw
  exact ⟨rfl, hw⟩

/-- Witness for C6 at the tested worker count 20. -/
theorem claim_C6_witness :
    (Dispatcher.startConfig 20).workerPoolCap = 200 ∧
    20 ≤ (Dispatcher.startConfig 20).workerPoolCap :=
  claim_C6 20 (by decide)

/-- Sample record for witnessing the library claims. -/
def vSample : Video.Video := ⟨"f0", "lbry://morgan", "/tmp/f0", "", 1⟩

/-- C7: `Furlough` deletes the local bytes first and only afterwards clears
`localPath`; `Retire` deletes the remote bytes first and only afterwards
deletes the record; in both, a failure of the byte-deletion step returns that
error with the metadata record untouched and the metadata call never made. -/
theorem claim_C7 : ∀ (lr up rr dr : Except Video.Err Unit)
    (db : List Video.Video) (v : Video.Video),
    ((Video.Furlough lr up db v).2.2.head? =
      some (Video.DriverCall.localDelete v.sdHash none)) ∧
    (∀ e, lr = Except.error e →
      Video.Furlough lr up db v =
        (Except.error e, db, [Video.DriverCall.localDelete v.sdHash none])) ∧
    (lr = Except.ok () → up = Except.ok () →
      Video.Furlough lr up db v =
        (Except.ok (), Video.updatePath db v.sdHash "",
          [Video.DriverCall.localDelete v.sdHash none,
           Video.DriverCall.updatePathCall v.sdHash "" (some 5)])) ∧
    ((Video.Retire rr dr db v).2.2.head? =
      some (Video.DriverCall.remoteDelete v.sdHash none)) ∧
    (∀ e, rr = Except.error e →
      Video.Retire rr dr db v =
        (Except.error e, db, [Video.DriverCall.remoteDelete v.sdHash none])) ∧
    (rr = Except.ok () → dr = Except.ok () →
      Video.Retire rr dr db v =
        (Except.ok (), Video.deleteRecord db v.sdHash,
          [Video.DriverCall.remoteDelete v.sdHash none,
           Video.DriverCall.deleteRecordCall v.sdHash (some 5)])) := by
  intro lr up rr dr db v
  refine ⟨?_, ?_, ?_, ?_, ?_, ?_⟩
  · cases lr with
    | error e => rfl
    | ok u =>
      cases up with
      | error e => rfl
      | ok u' => rfl
  · intro e he
    subst he
    rfl
  · intro h1 h2
    subst h1
    subst h2
    rfl
  · cases rr with
    | error e => rfl
    | ok u =>
      cases dr with
      | error e => rfl
      | ok u' => rfl
  · intro e he
    subst he
    rfl
  · intro h1 h2
    subst h1
    subst h2
    rfl

/-- Witness for C7: byte-deletion failures short-circuit Furlough and Retire
on a concrete record. -/
theorem claim_C7_witness :
    Video.Furlough (Except.error (Video.Err.failure 7)) (Except.ok ()) [] vSample =
      (Except.error (Video.Err.failure 7), [],
        [Video.DriverCall.localDelete vSample.sdHash none]) ∧
    Video.Retire (Except.error (Video.Err.failure 8)) (Except.ok ()) [] vSample =
      (Except.error (Video.Err.failure 8), [],
        [Video.DriverCall.remoteDelete vSample.sdHash none]) :=
  ⟨(claim_C7 (Except.error (Video.Err.failure 7)) (Except.ok ())
      (Except.error (Video.Err.failure 8)) (Except.ok ()) [] vSample).2.1 _ rfl,
   (claim_C7 (Except.error (Video.Err.failure 7)) (Except.ok ())
      (Except.error (Video.Err.failure 8)) (Except.ok ()) [] vSample).2.2.2.2.1 _ rfl⟩

/-- C10: in Furlough and Retire the 5-second deadline context is passed only
to the metadata operation; the byte deletions are invoked without any
context, so a context-deadline error surfacing from either operation can only
originate from the metadata step. -/
theorem claim_C10 : ∀ (lr up rr dr : Except Video.Err Unit)
    (db : List Video.Video) (v : Video.Video),
    (∀ s d, Video.DriverCall.localDelete s d ∈ (Video.Furlough lr up db v).2.2 →
      d = none) ∧
    (∀ s p d, Video.DriverCall.updatePathCall s p d ∈ (Video.Furlough lr up db v).2.2 →
      d = some 5) ∧
    (∀ s d, Video.DriverCall.remoteDelete s d ∈ (Video.Retire rr dr db v).2.2 →
      d = none) ∧
    (∀ s d, Video.DriverCall.deleteRecordCall s d ∈ (Video.Retire rr dr db v).2.2 →
      d = some 5) ∧
    (lr ≠ Except.error Video.Err.deadlineExceeded →
      (Video.Furlough lr up db v).1 = Except.error Video.Err.deadlineExceeded →
      up = Except.error Video.Err.deadlineExceeded) ∧
    (rr ≠ Except.error Video.Err.deadlineExceeded →
      (Video.Retire rr dr db v).1 = Except.error Video.Err.deadlineExceeded →
      dr = Except.error Video.Err.deadlineExceeded) := by
  intro lr up rr dr db v
  refine ⟨?_, ?_, ?_, ?_, ?_, ?_⟩
  · intro s d hmem
    cases lr with
    | error e =>
      simp [Video.Furlough] at hmem
      exact hmem.2
    | ok u =>
      cases up with
      | error e =>
        simp [Video.Furlough] at hmem
        exact hmem.2
      | ok u' =>
        simp [Video.Furlough] at hmem
        exact hmem.2
  · intro s p d hmem
    cases lr with
    | error e => simp [Video.Furlough] at hmem
    | ok u =>
      cases up with
      | error e =>
        simp [Video.Furlough] at hmem
        exact hmem.2.2
      | ok u' =>
        simp [Video.Furlough] at hmem
        exact hmem.2.2
  · intro s d hmem
    cases rr with
    | error e =>
      simp [Video.Retire] at hmem
      exact hmem.2
    | ok u =>
      cases dr with
      | error e =>
        simp [Video.Retire] at hmem
        exact hmem.2
      | ok u' =>
        simp [Video.Retire] at hmem
        exact hmem.2
  · intro s d hmem
    cases rr with
    | error e => simp [Video.Retire] at hmem
    | ok u =>
      cases dr with
      | error e =>
        simp [Video.Retire] at hmem
        exact hmem.2
      | ok u' =>
        simp [Video.Retire] at hmem
        exact hmem.2
  · intro hne herr
    cases lr with
    | error e =>
      exfalso
      apply hne
      have hfst : (Video.Furlough (Except.error e) up db v).1 = Except.error e := rfl
      rw [hfst] at herr
      exact herr
    | ok u =>
      cases up with
      | error e' =>
        have hfst : (Video.Furlough (Except.ok u) (Except.error e') db v).1 =
            Except.error e' := rfl
        rw [hfst] at herr
        exact herr
      | ok u' =>
        have hfst : (Video.Furlough (Except.ok u) (Except.ok u') db v).1 =
            Except.ok () := rfl
        rw [hfst] at herr
        cases herr
  · intro hne herr
    cases rr with
    | error e =>
      exfalso
      apply hne
      have hfst : (Video.Retire (Except.error e) dr db v).1 = Except.error e := rfl
      rw [hfst] at herr
      exact herr
    | ok u =>
      cases dr with
      | error e' =>
        have hfst : (Video.Retire (Except.ok u) (Except.error e') db v).1 =
            Except.error e' := rfl
        rw [hfst] at herr
        exact herr
      | ok u' =>
        have hfst : (Video.Retire (Except.ok u) (Except.ok u') db v).1 =
            Except.ok () := rfl
        rw [hfst] at herr
        cases herr

/-- Witness for C10: with the byte deletion succeeding and the metadata
update timing out, the deadline error surfaced by Furlough is the metadata
step's. -/
theorem claim_C10_witness :
    (Except.error Video.Err.deadlineExceeded : Except Video.Err Unit) =
      Except.error Video.Err.deadlineExceeded :=
  (claim_C10 (Except.ok ()) (Except.error Video.Err.deadlineExceeded)
      (Except.ok ()) (Except.ok ()) [] vSample).2.2.2.2.1 (by simp) rfl

/-- C8: fragmentURL fails with the literal mismatch error exactly when the
supplied sdHash does not match the 96-lowercase-hex hash parsable from the
stream URL, and succeeds with the composed upstream URL when it matches; the
parsed hash is always 96 lowercase-hex characters. -/
theorem claim_C8 :
    (∀ server u sdHash name : String, Client.findSdHash u.data ≠ some sdHash.data →
      Client.fragmentURL server u sdHash name = Except.error Client.sdHashMismatchErr) ∧
    (∀ server u sdHash name : String, Client.findSdHash u.data = some sdHash.data →
      Client.fragmentURL server u sdHash name =
        Except.ok (server ++ "/streams/" ++ sdHash ++ "/" ++ name)) ∧
    (∀ (u h : List Char), Client.findSdHash u = some h →
      h.length = 96 ∧ ∀ c ∈ h, Client.isSdHashChar c = true) := by
  refine ⟨?_, ?_, fun u h hh => Client.findSdHash_spec hh⟩
  · intro server u sdHash name hne
    rw [Client.fragmentURL]
    cases hf : Client.findSdHash u.data with
    | none => rfl
    | some h =>
      have hns : h ≠ sdHash.data := fun hcontra => hne (by rw [hf, hcontra])
      show (if h = sdHash.data then
        Except.ok (server ++ "/streams/" ++ sdHash ++ "/" ++ name)
        else Except.error Client.sdHashMismatchErr) = Except.error Client.sdHashMismatchErr
      rw [if_neg hns]
  · intro server u sdHash name heq
    rw [Client.fragmentURL, heq]
    show (if sdHash.data = sdHash.data then
      Except.ok (server ++ "/streams/" ++ sdHash ++ "/" ++ name)
      else Except.error Client.sdHashMismatchErr) = _
    rw [if_pos rfl]

/-- The 96-hex hash of the accepted test case. -/
def hash96 : String :=
  "bec50ab288153ed03b0eb8dafd814daf19a187e07f8da4ad91cf778f5c39ac74d9d92ad6e3ebf2ddb6b7acea3cb8893a"

/-- The resolved stream URL of the accepted test case. -/
def resolvedSample : String :=
  "http://t0.lbry.tv:18081/streams/bec50ab288153ed03b0eb8dafd814daf19a187e07f8da4ad91cf778f5c39ac74d9d92ad6e3ebf2ddb6b7acea3cb8893a/master.m3u8"

set_option maxRecDepth 100000 in
/-- Witness for C8 on the test fixture: a matching 96-hex hash composes the
upstream URL, a non-matching hash fails with the mismatch error. -/
theorem claim_C8_witness :
    Client.fragmentURL "http://t0.lbry.tv:18081" resolvedSample hash96 "master.m3u8" =
      Except.ok ("http://t0.lbry.tv:18081" ++ "/streams/" ++ hash96 ++ "/" ++ "master.m3u8") ∧
    Client.fragmentURL "http://t0.lbry.tv:18081" resolvedSample "azazaz" "master.m3u8" =
      Except.error Client.sdHashMismatchErr :=
  ⟨claim_C8.2.1 "http://t0.lbry.tv:18081" resolvedSample hash96 "master.m3u8" (by decide),
   claim_C8.1 "http://t0.lbry.tv:18081" resolvedSample "azazaz" "master.m3u8" (by decide)⟩

/-- C9: RestoreCache registers every regular file under every hash directory
and returns the exhaustive total count — 3170 for the ten-stream fixture of
78*4+5 files each — and every registered fragment is afterwards retrievable
through getCachedFragment with hit = true and an entry whose size equals the
on-disk size. -/
theorem claim_C9 :
    (∀ fs : Client.DiskState,
      (Client.RestoreCache fs).2 = (fs.dirs.map (fun d => d.2.length)).sum) ∧
    ((Client.RestoreCache Client.tenStreams).2 = 3170) ∧
    (∀ fs : Client.DiskState, (fs.dirs.map Prod.fst).Nodup →
      (∀ d ∈ fs.dirs, (d.2.map Prod.fst).Nodup) →
      ∀ (h : String) (files : List (String × Nat)), (h, files) ∈ fs.dirs →
      ∀ (n : String) (sz : Nat), (n, sz) ∈ files → ∀ url : String,
        Client.getCachedFragment (Client.RestoreCache fs).1 url h n =
          (some ⟨h, n, sz⟩, true)) := by
  refine ⟨Client.restoreCache_count, ?_, ?_⟩
  · rw [Client.restoreCache_count]
    show ((Client.tenStreams.dirs.map (fun d => d.2.length))).sum = 3170
    rw [Client.tenStreams]
    simp only [List.map_map, Function.comp_def, List.length_map, List.length_range]
    decide
  · intro fs hnd hins h files hdir n sz hfile url
    rw [Client.getCachedFragment, Client.restore_find hnd hins hdir hfile]

/-- Witness for C9 on a two-directory, three-file disk state. -/
theorem claim_C9_witness :
    Client.getCachedFragment
      (Client.RestoreCache ⟨[("a", [("x", 3), ("y", 4)]), ("b", [("x", 5)])]⟩).1
      "zzz" "b" "x" = (some ⟨"b", "x", 5⟩, true) :=
  claim_C9.2.2 ⟨[("a", [("x", 3), ("y", 4)]), ("b", [("x", 5)])]⟩ (by decide) (by decide)
    "b" [("x", 5)] (by decide) "x" 5 (by decide) "zzz"
